import Mathlib

/-!
Verification of the external merge-sort engine in `external_sort.py`
(class `ExternalMergeSort`).

Modelling conventions:

* One line of a file of line-terminated records is a `Line := List Char`
  (the line is understood to carry its terminating separator, so writing the
  lines of the temp files back to back reparses to the same records), and a
  file is a `List Line`.  Python compares lines by codepoint; the
  lexicographic order on `List Char` is the same order.
* `file.readlines(hint)` (semantics of the C `_io` implementation used by
  the builtin `open`: lines are accumulated and the loop stops as soon as
  the cumulative length strictly exceeds `hint`) is `readLinesHint`.
  `__init__` coerces a falsy memory limit / buffer size to a positive
  default, so the interesting domain has `1 ≤ mem` and `1 ≤ buf`.
* `heapq.heapify` followed by `len(block)` pops of `heapq.heappop` emits the
  elements of the block in nondecreasing order (repeated extraction of the
  minimum); `heapSort` models exactly that.
* `heapq.merge(*files)` is a streaming merge that always yields the smallest
  current head, breaking ties in favour of the earlier iterable (the heap
  entries are `(value, order)` pairs).  `pickPop` selects exactly that line
  and `mergeAux` / `mergeLists` iterate it.
* `_get_pass_params` computes with `numpy` float64 logarithms.  The exact
  real-number semantics of those expressions is `numMergesR` / `fanInR` /
  `getPassParamsR` (`int(np.ceil(e))` is `⌈e⌉` and `int(m / d)` is
  `⌊m / d⌋` for the positive values arising here).  `numMerges` / `fanIn`
  give the equivalent integer characterisations (least `k ≥ 1` with
  `(m/b - 1)^k ≥ n`, least `x ≥ 1` with `x^k ≥ n`), proved equal to the
  real formulas on the valid domain (`2 ≤ n`, `1 ≤ b`, `2*b < m`) by
  `numMerges_eq_formula` / `fanIn_eq_formula`; the executable pipeline uses
  the characterisations.
* `sort` is `externalSortRun`.  It returns the produced output (or `none`
  when the Python run raises) together with the temp files left in the
  workspace.  The `none` cases are faithful to the source: zero chunks make
  `_get_pass_params` evaluate `np.log(0)` and `int(np.ceil(-inf))` raises
  `OverflowError`; for two or more chunks with `m ≤ 2*b` the run raises
  inside `_get_pass_params` (log of a nonpositive number, or a division
  producing `inf` or `ZeroDivisionError`) or, when a negative pass count
  makes the merge loop body never run, with `NameError` at
  `_move_to_save_path`; a final pool of more than one file makes
  `os.removedirs` fail on a nonempty directory after the last written file
  was renamed away.
* The merge loop lists the workspace with `iterdir`, whose order is
  OS-dependent; the model keeps the pool in list order.  All properties
  proved below about the merge phase are insensitive to that order.
-/

namespace ExternalSort

/-- One line of the input file, as the sequence of its characters. -/
abbrev Line : Type := List Char

/-- CPython `readlines(hint)` (the C `_io` implementation used by the
builtin `open`) on the given remaining lines: lines are read one by one and
accumulation stops as soon as the cumulative number of characters strictly
exceeds `hint`.  Returns the block read and the remaining lines. -/
def readLinesHint (hint : ℕ) : List Line → List Line × List Line
  | [] => ([], [])
  | l :: ls =>
    if hint < l.length then ([l], ls)
    else
      ((l :: (readLinesHint (hint - l.length) ls).1),
       (readLinesHint (hint - l.length) ls).2)

/-- The block loop of `ExternalMergeSort._split`: repeatedly read a block with
`readlines(memory_limit)` until the block comes back empty.  Fuel-indexed;
`splitBlocks` supplies sufficient fuel. -/
def splitAux (mem : ℕ) : ℕ → List Line → List (List Line)
  | 0, _ => []
  | _ + 1, [] => []
  | f + 1, l :: ls =>
    (readLinesHint mem (l :: ls)).1 ::
      splitAux mem f (readLinesHint mem (l :: ls)).2

/-- All blocks produced by the `_split` read loop, in order. -/
def splitBlocks (mem : ℕ) (lines : List Line) : List (List Line) :=
  splitAux mem lines.length lines

/-- One `heapq.heappop`: extract the least line of the nonempty pool
`x :: xs`, returning it and the remaining lines. -/
def extractMin (x : Line) : List Line → Line × List Line
  | [] => (x, [])
  | y :: ys =>
    if x ≤ y then ((extractMin x ys).1, y :: (extractMin x ys).2)
    else ((extractMin y ys).1, x :: (extractMin y ys).2)

/-- Model of `heapq.heapify` followed by `len(block)` pops of `heapq.heappop`, i.e.
repeated extraction of the minimum.  Fuel-indexed; `heapSort` supplies
sufficient fuel. -/
def heapSortAux : ℕ → List Line → List Line
  | 0, _ => []
  | _ + 1, [] => []
  | f + 1, x :: xs =>
    (extractMin x xs).1 :: heapSortAux f (extractMin x xs).2

/-- The in-place heap sort `_split` applies to each block. -/
def heapSort (l : List Line) : List Line := heapSortAux l.length l

/-- One step of `heapq.merge`: among the current head lines pick the
smallest, preferring the earlier input on ties (the heap orders the pairs
`(value, order)` lexicographically), and pop it from its list.  Returns
`none` when every input is exhausted. -/
def pickPop : List (List Line) → Option (Line × List (List Line))
  | [] => none
  | [] :: ls => (pickPop ls).map (fun p => (p.1, ([] : List Line) :: p.2))
  | (x :: t) :: ls =>
    match pickPop ls with
    | none => some (x, t :: ls)
    | some p => if p.1 < x then some (p.1, (x :: t) :: p.2) else some (x, t :: ls)

/-- The output stream of `heapq.merge`, fuel-indexed; `mergeLists` supplies
sufficient fuel. -/
def mergeAux : ℕ → List (List Line) → List Line
  | 0, _ => []
  | f + 1, ls =>
    match pickPop ls with
    | none => []
    | some p => p.1 :: mergeAux f p.2

/-- The call `ExternalMergeSort._merge_files` restricted to its observable content:
the merged line stream of the given input files (the inputs are deleted by
the call; in the pool model of `_merge` below they are simply replaced by
this output). -/
def mergeLists (ls : List (List Line)) : List Line :=
  mergeAux ls.flatten.length ls

/-- Least `k` at or after `start` satisfying `p`, searching `fuel` more
candidates; returns `start + fuel` when none is found. -/
def leastFrom (p : ℕ → Bool) : ℕ → ℕ → ℕ
  | start, 0 => start
  | start, f + 1 => if p start then start else leastFrom p (start + 1) f

/-- The `num_merges` component of `_get_pass_params`: the least `k ≥ 1`
with `(m/b - 1)^k ≥ n`, i.e. `n * b^k ≤ (m-b)^k` over ℕ.  On the valid
domain this equals the source expression
`int(np.ceil(1 / (np.log(m/b - 1) / np.log(n))))`, see
`numMerges_eq_formula`. -/
def numMerges (n m b : ℕ) : ℕ :=
  leastFrom (fun k => decide (n * b ^ k ≤ (m - b) ^ k)) 1 (b * n)

/-- The `num_files_to_merge` component of `_get_pass_params`: the least `x ≥ 1` with
`x ^ num_merges ≥ n`.  On the valid domain this equals the source
expression `int(np.ceil(n ** (1 / num_merges)))`, see `fanIn_eq_formula`. -/
def fanIn (n m b : ℕ) : ℕ :=
  leastFrom (fun x => decide (n ≤ x ^ numMerges n m b)) 1 n

/-- Model of `ExternalMergeSort._get_pass_params` (integer characterisation): returns
`(num_merges, num_files_to_merge, buffer_size)`, recomputing the buffer as
`int(memory_limit / (num_files_to_merge + 1))` when `update_buffer_size`. -/
def getPassParams (n m b : ℕ) (upd : Bool) : ℕ × ℕ × ℕ :=
  (numMerges n m b, fanIn n m b,
    if upd then m / (fanIn n m b + 1) else b)

/-- Exact real semantics of the source expression
`int(np.ceil(1 / (np.log(memory_limit / buffer_size - 1) / np.log(num_split_files))))`. -/
noncomputable def numMergesR (n m b : ℕ) : ℤ :=
  ⌈1 / (Real.log ((m : ℝ) / (b : ℝ) - 1) / Real.log (n : ℝ))⌉

/-- Exact real semantics of the source expression
`int(np.ceil(num_split_files ** (1 / num_merges)))`. -/
noncomputable def fanInR (n m b : ℕ) : ℤ :=
  ⌈(n : ℝ) ^ ((1 : ℝ) / ((numMergesR n m b : ℤ) : ℝ))⌉

/-- Exact real semantics of `ExternalMergeSort._get_pass_params`: the triple
`(num_merges, num_files_to_merge, buffer_size)` with the buffer recomputed as
`int(memory_limit / (num_files_to_merge + 1))` when `update_buffer_size` is
set and kept at the caller's value otherwise. -/
noncomputable def getPassParamsR (n m b : ℕ) (upd : Bool) : ℤ × ℤ × ℤ :=
  (numMergesR n m b, fanInR n m b,
    if upd then ⌊(m : ℝ) / ((fanInR n m b : ℝ) + 1)⌋ else (b : ℤ))

/-- Consecutive groups of `n` elements (`temp_files[start:start+n]` for
`start in range(0, len(temp_files), n)`).  Fuel-indexed; `chunksOf`
supplies sufficient fuel. -/
def chunksOfAux {α : Type} (n : ℕ) : ℕ → List α → List (List α)
  | 0, _ => []
  | _ + 1, [] => []
  | f + 1, x :: xs =>
    (x :: xs).take n :: chunksOfAux n f ((x :: xs).drop n)

/-- Partition of a list into consecutive groups of `n` elements. -/
def chunksOf {α : Type} (n : ℕ) (l : List α) : List (List α) :=
  chunksOfAux n l.length l

/-- One iteration of the merge loop of `_merge`: the current workspace pool
is listed, partitioned into groups of `num_files_to_merge` files, and each
group is merged into one new file (consuming, i.e. deleting, its inputs). -/
def mergePass (x : ℕ) (pool : List (List Line)) : List (List Line) :=
  (chunksOf x pool).map mergeLists

/-- Repetition of the merge loop, `num_merges` times. -/
def runPasses : ℕ → ℕ → List (List Line) → List (List Line)
  | 0, _, pool => pool
  | k + 1, x, pool => runPasses k x (mergePass x pool)

/-- Model of `ExternalMergeSort.sort`: split into sorted chunks, then merge.  Returns
the content of the produced output file (`none` when the Python run raises,
see the module docstring for the case-by-case correspondence) together with
the temp files still in the workspace afterwards. -/
def externalSortRun (mem buf : ℕ) (upd : Bool) (lines : List Line) :
    Option (List Line) × List (List Line) :=
  match (splitBlocks mem lines).map heapSort with
  | [] => (none, [])
  | [c] => (some c, [])
  | c1 :: c2 :: rest =>
    if 2 * buf < mem then
      match runPasses (numMerges (c1 :: c2 :: rest).length mem buf)
          (fanIn (c1 :: c2 :: rest).length mem buf) (c1 :: c2 :: rest) with
      | [r] => (some r, [])
      | final => (none, final.dropLast)
    else (none, c1 :: c2 :: rest)

/-- The output file produced by `ExternalMergeSort.sort`, when the run
completes. -/
def externalSort (mem buf : ℕ) (upd : Bool) (lines : List Line) :
    Option (List Line) :=
  (externalSortRun mem buf upd lines).1

open List

/-! ### The split phase -/

theorem readLinesHint_append (hint : ℕ) (l : List Line) :
    (readLinesHint hint l).1 ++ (readLinesHint hint l).2 = l := by
  induction l generalizing hint with
  | nil => simp [readLinesHint]
  | cons x xs ih =>
    by_cases h : hint < x.length
    · simp [readLinesHint, h]
    · simp [readLinesHint, h, ih]

theorem readLinesHint_fst_ne_nil (hint : ℕ) (l : List Line) (h : l ≠ []) :
    (readLinesHint hint l).1 ≠ [] := by
  cases l with
  | nil => exact absurd rfl h
  | cons x xs =>
    by_cases hx : hint < x.length <;> simp [readLinesHint, hx]

theorem readLinesHint_snd_length (hint : ℕ) (l : List Line) (h : l ≠ []) :
    (readLinesHint hint l).2.length < l.length := by
  have h1 := congrArg List.length (readLinesHint_append hint l)
  have h2 : 0 < (readLinesHint hint l).1.length :=
    List.length_pos.mpr (readLinesHint_fst_ne_nil hint l h)
  simp only [List.length_append] at h1
  omega

theorem readLinesHint_dropLast (hint : ℕ) (l : List Line) :
    (((readLinesHint hint l).1.dropLast.map List.length).sum) ≤ hint := by
  induction l generalizing hint with
  | nil => simp [readLinesHint]
  | cons x xs ih =>
    by_cases hx : hint < x.length
    · simp [readLinesHint, hx]
    · cases hp : (readLinesHint (hint - x.length) xs).1 with
      | nil => simp [readLinesHint, hx, hp]
      | cons y ys =>
        have ihx := ih (hint - x.length)
        rw [hp] at ihx
        simp only [readLinesHint, if_neg hx, hp, List.dropLast_cons₂,
          List.map_cons, List.sum_cons]
        have hxl : x.length ≤ hint := by omega
        omega

theorem splitAux_flatten (mem : ℕ) :
    ∀ f l, l.length ≤ f → (splitAux mem f l).flatten = l := by
  intro f
  induction f with
  | zero =>
    intro l hl
    have : l = [] := List.eq_nil_of_length_eq_zero (by omega)
    simp [this, splitAux]
  | succ f ih =>
    intro l hl
    cases l with
    | nil => simp [splitAux]
    | cons x xs =>
      have hlt := readLinesHint_snd_length mem (x :: xs) (by simp)
      have := ih (readLinesHint mem (x :: xs)).2 (by simp at hlt hl ⊢; omega)
      simp [splitAux, this, readLinesHint_append]

theorem splitBlocks_flatten (mem : ℕ) (lines : List Line) :
    (splitBlocks mem lines).flatten = lines :=
  splitAux_flatten mem lines.length lines le_rfl

theorem mem_splitAux (mem : ℕ) :
    ∀ f l b, b ∈ splitAux mem f l → ∃ l', b = (readLinesHint mem l').1 := by
  intro f
  induction f with
  | zero => intro l b hb; simp [splitAux] at hb
  | succ f ih =>
    intro l b hb
    cases l with
    | nil => simp [splitAux] at hb
    | cons x xs =>
      simp only [splitAux, List.mem_cons] at hb
      rcases hb with hb | hb
      · exact ⟨x :: xs, hb⟩
      · exact ih _ b hb

theorem splitBlocks_block_bound (mem : ℕ) (lines : List Line) (b : List Line)
    (hb : b ∈ splitBlocks mem lines) :
    ((b.dropLast.map List.length).sum) ≤ mem := by
  obtain ⟨l', rfl⟩ := mem_splitAux mem lines.length lines b hb
  exact readLinesHint_dropLast mem l'

/-! ### The in-place heap sort of a block -/

theorem extractMin_perm (x : Line) :
    ∀ xs, (extractMin x xs).1 :: (extractMin x xs).2 ~ x :: xs := by
  intro xs
  induction xs generalizing x with
  | nil => simp [extractMin]
  | cons y ys ih =>
    by_cases h : x ≤ y
    · simp only [extractMin, if_pos h]
      exact ((List.Perm.swap _ _ _).trans ((ih x).cons y)).trans (List.Perm.swap _ _ _)
    · simp only [extractMin, if_neg h]
      exact (List.Perm.swap _ _ _).trans ((ih y).cons x)

theorem extractMin_le (x : Line) :
    ∀ xs, (extractMin x xs).1 ≤ x ∧ ∀ z ∈ xs, (extractMin x xs).1 ≤ z := by
  intro xs
  induction xs generalizing x with
  | nil => simp [extractMin]
  | cons y ys ih =>
    by_cases h : x ≤ y
    · simp only [extractMin, if_pos h]
      refine ⟨(ih x).1, ?_⟩
      intro z hz
      rcases List.mem_cons.mp hz with rfl | hz
      · exact le_trans (ih x).1 h
      · exact (ih x).2 z hz
    · have hyx : y ≤ x := le_of_not_le h
      simp only [extractMin, if_neg h]
      refine ⟨le_trans (ih y).1 hyx, ?_⟩
      intro z hz
      rcases List.mem_cons.mp hz with rfl | hz
      · exact (ih z).1
      · exact (ih y).2 z hz

theorem extractMin_snd_length (x : Line) (xs : List Line) :
    (extractMin x xs).2.length = xs.length := by
  have := (extractMin_perm x xs).length_eq
  simpa using this

theorem heapSortAux_perm :
    ∀ f l, l.length ≤ f → heapSortAux f l ~ l := by
  intro f
  induction f with
  | zero =>
    intro l hl
    have : l = [] := List.eq_nil_of_length_eq_zero (by omega)
    simp [this, heapSortAux]
  | succ f ih =>
    intro l hl
    cases l with
    | nil => simp [heapSortAux]
    | cons x xs =>
      have hlen : (extractMin x xs).2.length ≤ f := by
        rw [extractMin_snd_length]; simpa using hl
      calc (extractMin x xs).1 :: heapSortAux f (extractMin x xs).2
          ~ (extractMin x xs).1 :: (extractMin x xs).2 := (ih _ hlen).cons _
        _ ~ x :: xs := extractMin_perm x xs

theorem heapSortAux_sorted :
    ∀ f l, l.length ≤ f → List.Sorted (· ≤ ·) (heapSortAux f l) := by
  intro f
  induction f with
  | zero => intro l hl; simp [heapSortAux]
  | succ f ih =>
    intro l hl
    cases l with
    | nil => simp [heapSortAux]
    | cons x xs =>
      have hlen : (extractMin x xs).2.length ≤ f := by
        rw [extractMin_snd_length]; simpa using hl
      rw [heapSortAux, List.sorted_cons]
      refine ⟨?_, ih _ hlen⟩
      intro z hz
      have hz2 : z ∈ (extractMin x xs).2 := (heapSortAux_perm f _ hlen).mem_iff.mp hz
      have hz3 : z ∈ x :: xs :=
        (extractMin_perm x xs).mem_iff.mp (List.mem_cons_of_mem _ hz2)
      rcases List.mem_cons.mp hz3 with rfl | hz4
      · exact (extractMin_le z xs).1
      · exact (extractMin_le x xs).2 z hz4

theorem heapSort_perm (l : List Line) : heapSort l ~ l :=
  heapSortAux_perm l.length l le_rfl

theorem heapSort_sorted (l : List Line) : List.Sorted (· ≤ ·) (heapSort l) :=
  heapSortAux_sorted l.length l le_rfl

theorem heapSort_of_sorted (l : List Line) (h : List.Sorted (· ≤ ·) l) :
    heapSort l = l :=
  List.eq_of_perm_of_sorted (heapSort_perm l) (heapSort_sorted l) h

/-! ### The streaming k-way merge -/

theorem pickPop_eq_none {ls : List (List Line)} (h : pickPop ls = none) :
    ∀ l ∈ ls, l = [] := by
  induction ls with
  | nil => simp
  | cons hd tl ih =>
    cases hd with
    | nil =>
      simp only [pickPop, Option.map_eq_none'] at h
      intro l hl
      rcases List.mem_cons.mp hl with rfl | hl
      · rfl
      · exact ih h l hl
    | cons x t =>
      exfalso
      cases hm : pickPop tl with
      | none => rw [pickPop, hm] at h; exact Option.noConfusion h
      | some q =>
        rw [pickPop, hm] at h
        by_cases hq : q.1 < x <;> simp [hq] at h

theorem pickPop_perm {ls : List (List Line)} {p : Line × List (List Line)}
    (h : pickPop ls = some p) : p.1 :: p.2.flatten ~ ls.flatten := by
  induction ls generalizing p with
  | nil => exact Option.noConfusion h
  | cons hd tl ih =>
    cases hd with
    | nil =>
      rw [pickPop, Option.map_eq_some'] at h
      obtain ⟨q, hq, rfl⟩ := h
      simpa using ih hq
    | cons x t =>
      cases hm : pickPop tl with
      | none =>
        rw [pickPop, hm] at h
        obtain rfl := Option.some.inj h
        simp
      | some q =>
        by_cases hq : q.1 < x
        · simp only [pickPop, hm, if_pos hq] at h
          obtain rfl := Option.some.inj h
          have := ih hm
          calc q.1 :: ((x :: t) :: q.2).flatten
              = q.1 :: ((x :: t) ++ q.2.flatten) := by simp
            _ ~ (x :: t) ++ q.1 :: q.2.flatten := List.perm_middle.symm
            _ ~ (x :: t) ++ tl.flatten := List.Perm.append_left _ this
            _ = ((x :: t) :: tl).flatten := by simp
        · simp only [pickPop, hm, if_neg hq] at h
          obtain rfl := Option.some.inj h
          simp

theorem pickPop_min {ls : List (List Line)} {p : Line × List (List Line)}
    (h : pickPop ls = some p) :
    ∀ l ∈ ls, ∀ y t', l = y :: t' → p.1 ≤ y := by
  induction ls generalizing p with
  | nil => exact Option.noConfusion h
  | cons hd tl ih =>
    cases hd with
    | nil =>
      rw [pickPop, Option.map_eq_some'] at h
      obtain ⟨q, hq, rfl⟩ := h
      intro l hl y t' hline
      rcases List.mem_cons.mp hl with rfl | hl
      · exact List.noConfusion hline
      · exact ih hq l hl y t' hline
    | cons x t =>
      intro l hl y t' hline
      cases hm : pickPop tl with
      | none =>
        rw [pickPop, hm] at h
        obtain rfl := Option.some.inj h
        rcases List.mem_cons.mp hl with rfl | hl
        · obtain ⟨rfl, -⟩ := List.cons.inj hline
          exact le_refl _
        · have := pickPop_eq_none hm l hl
          rw [this] at hline
          exact List.noConfusion hline
      | some q =>
        by_cases hq : q.1 < x
        · simp only [pickPop, hm, if_pos hq] at h
          obtain rfl := Option.some.inj h
          rcases List.mem_cons.mp hl with rfl | hl
          · obtain ⟨rfl, -⟩ := List.cons.inj hline
            exact le_of_lt hq
          · exact ih hm l hl y t' hline
        · simp only [pickPop, hm, if_neg hq] at h
          obtain rfl := Option.some.inj h
          rcases List.mem_cons.mp hl with rfl | hl
          · obtain ⟨rfl, -⟩ := List.cons.inj hline
            exact le_refl _
          · exact le_trans (le_of_not_lt hq) (ih hm l hl y t' hline)

theorem pickPop_sorted {ls : List (List Line)} {p : Line × List (List Line)}
    (h : pickPop ls = some p) (hs : ∀ l ∈ ls, List.Sorted (· ≤ ·) l) :
    ∀ l ∈ p.2, List.Sorted (· ≤ ·) l := by
  induction ls generalizing p with
  | nil => exact Option.noConfusion h
  | cons hd tl ih =>
    cases hd with
    | nil =>
      rw [pickPop, Option.map_eq_some'] at h
      obtain ⟨q, hq, rfl⟩ := h
      intro l hl
      rcases List.mem_cons.mp hl with rfl | hl
      · exact List.sorted_nil
      · exact ih hq (fun l' hl' => hs l' (List.mem_cons_of_mem _ hl')) l hl
    | cons x t =>
      intro l hl
      cases hm : pickPop tl with
      | none =>
        rw [pickPop, hm] at h
        obtain rfl := Option.some.inj h
        rcases List.mem_cons.mp hl with rfl | hl
        · exact (hs _ (List.mem_cons_self _ _)).of_cons
        · exact hs l (List.mem_cons_of_mem _ hl)
      | some q =>
        by_cases hq : q.1 < x
        · simp only [pickPop, hm, if_pos hq] at h
          obtain rfl := Option.some.inj h
          rcases List.mem_cons.mp hl with rfl | hl
          · exact hs _ (List.mem_cons_self _ _)
          · exact ih hm (fun l' hl' => hs l' (List.mem_cons_of_mem _ hl')) l hl
        · simp only [pickPop, hm, if_neg hq] at h
          obtain rfl := Option.some.inj h
          rcases List.mem_cons.mp hl with rfl | hl
          · exact (hs _ (List.mem_cons_self _ _)).of_cons
          · exact hs l (List.mem_cons_of_mem _ hl)

theorem pickPop_head_mem {ls : List (List Line)} {p : Line × List (List Line)}
    (h : pickPop ls = some p) : ∃ t', (p.1 :: t') ∈ ls := by
  induction ls generalizing p with
  | nil => exact Option.noConfusion h
  | cons hd tl ih =>
    cases hd with
    | nil =>
      rw [pickPop, Option.map_eq_some'] at h
      obtain ⟨q, hq, rfl⟩ := h
      obtain ⟨t', ht'⟩ := ih hq
      exact ⟨t', List.mem_cons_of_mem _ ht'⟩
    | cons x t =>
      cases hm : pickPop tl with
      | none =>
        rw [pickPop, hm] at h
        obtain rfl := Option.some.inj h
        exact ⟨t, List.mem_cons_self _ _⟩
      | some q =>
        by_cases hq : q.1 < x
        · simp only [pickPop, hm, if_pos hq] at h
          obtain rfl := Option.some.inj h
          obtain ⟨t', ht'⟩ := ih hm
          exact ⟨t', List.mem_cons_of_mem _ ht'⟩
        · simp only [pickPop, hm, if_neg hq] at h
          obtain rfl := Option.some.inj h
          exact ⟨t, List.mem_cons_self _ _⟩

theorem pickPop_flatten_length {ls : List (List Line)} {p : Line × List (List Line)}
    (h : pickPop ls = some p) :
    ls.flatten.length = p.2.flatten.length + 1 := by
  have := (pickPop_perm h).length_eq
  simp only [List.length_cons] at this
  omega

theorem flatten_eq_nil_of_pickPop_none {ls : List (List Line)}
    (h : pickPop ls = none) : ls.flatten = [] := by
  rw [List.flatten_eq_nil_iff]
  exact pickPop_eq_none h

theorem pickPop_ne_none_of_flatten {ls : List (List Line)}
    (h : ls.flatten.length = 0) : pickPop ls = none := by
  cases hm : pickPop ls with
  | none => rfl
  | some p =>
    have := pickPop_flatten_length hm
    omega

theorem mergeAux_congr :
    ∀ f₁ f₂ ls, ls.flatten.length ≤ f₁ → ls.flatten.length ≤ f₂ →
      mergeAux f₁ ls = mergeAux f₂ ls := by
  intro f₁
  induction f₁ with
  | zero =>
    intro f₂ ls h₁ h₂
    have hnone := @pickPop_ne_none_of_flatten ls (by omega)
    cases f₂ with
    | zero => rfl
    | succ f₂ => simp [mergeAux, hnone]
  | succ f₁ ih =>
    intro f₂ ls h₁ h₂
    cases f₂ with
    | zero =>
      have hnone := @pickPop_ne_none_of_flatten ls (by omega)
      simp [mergeAux, hnone]
    | succ f₂ =>
      cases hm : pickPop ls with
      | none => simp [mergeAux, hm]
      | some p =>
        have hlen := pickPop_flatten_length hm
        simp only [mergeAux, hm]
        rw [ih f₂ p.2 (by omega) (by omega)]

theorem mergeAux_perm :
    ∀ f ls, ls.flatten.length ≤ f → mergeAux f ls ~ ls.flatten := by
  intro f
  induction f with
  | zero =>
    intro ls h
    have h0 : ls.flatten = [] := List.eq_nil_of_length_eq_zero (by omega)
    simp [mergeAux, h0]
  | succ f ih =>
    intro ls h
    cases hm : pickPop ls with
    | none => simp [mergeAux, hm, flatten_eq_nil_of_pickPop_none hm]
    | some p =>
      have hlen := pickPop_flatten_length hm
      calc mergeAux (f + 1) ls
          = p.1 :: mergeAux f p.2 := by simp [mergeAux, hm]
        _ ~ p.1 :: p.2.flatten := (ih p.2 (by omega)).cons _
        _ ~ ls.flatten := pickPop_perm hm

theorem mergeAux_sorted :
    ∀ f ls, ls.flatten.length ≤ f → (∀ l ∈ ls, List.Sorted (· ≤ ·) l) →
      List.Sorted (· ≤ ·) (mergeAux f ls) := by
  intro f
  induction f with
  | zero => intro ls h hs; simp [mergeAux]
  | succ f ih =>
    intro ls h hs
    cases hm : pickPop ls with
    | none => simp [mergeAux, hm]
    | some p =>
      have hlen := pickPop_flatten_length hm
      simp only [mergeAux, hm, List.sorted_cons]
      refine ⟨?_, ih p.2 (by omega) (pickPop_sorted hm hs)⟩
      intro z hz
      have hz1 : z ∈ p.2.flatten := (mergeAux_perm f p.2 (by omega)).mem_iff.mp hz
      have hz2 : z ∈ ls.flatten :=
        (pickPop_perm hm).mem_iff.mp (List.mem_cons_of_mem _ hz1)
      obtain ⟨l, hl, hzl⟩ := List.mem_flatten.mp hz2
      cases l with
      | nil => exact absurd hzl (List.not_mem_nil z)
      | cons y t' =>
        have h1 : p.1 ≤ y := pickPop_min hm _ hl y t' rfl
        have h2 : y ≤ z := by
          rcases List.mem_cons.mp hzl with rfl | hzt
          · exact le_refl _
          · exact List.rel_of_sorted_cons (hs _ hl) z hzt
        exact le_trans h1 h2

theorem mergeLists_perm (ls : List (List Line)) : mergeLists ls ~ ls.flatten :=
  mergeAux_perm ls.flatten.length ls le_rfl

theorem mergeLists_sorted (ls : List (List Line))
    (hs : ∀ l ∈ ls, List.Sorted (· ≤ ·) l) :
    List.Sorted (· ≤ ·) (mergeLists ls) :=
  mergeAux_sorted ls.flatten.length ls le_rfl hs

theorem mergeLists_step {ls : List (List Line)} {p : Line × List (List Line)}
    (h : pickPop ls = some p) : mergeLists ls = p.1 :: mergeLists p.2 := by
  have hlen := pickPop_flatten_length h
  rw [mergeLists, hlen]
  simp only [mergeAux, h]
  rw [mergeLists, mergeAux_congr p.2.flatten.length p.2.flatten.length p.2 le_rfl le_rfl]

theorem pickPop_stable :
    ∀ (ls₁ : List (List Line)) (s : Line) (t : List Line) (ls₂ : List (List Line)),
      (∀ l ∈ ls₁, ∀ y t', l = y :: t' → s < y) →
      (∀ l ∈ ls₂, ∀ y t', l = y :: t' → s ≤ y) →
      pickPop (ls₁ ++ (s :: t) :: ls₂) = some (s, ls₁ ++ t :: ls₂) := by
  intro ls₁
  induction ls₁ with
  | nil =>
    intro s t ls₂ h1 h2
    cases hm : pickPop ls₂ with
    | none => simp [pickPop, hm]
    | some q =>
      obtain ⟨t', ht'⟩ := pickPop_head_mem hm
      have hs : s ≤ q.1 := h2 _ ht' q.1 t' rfl
      have : ¬ q.1 < s := not_lt_of_le hs
      simp [pickPop, hm, this]
  | cons hd tl ih =>
    intro s t ls₂ h1 h2
    cases hd with
    | nil =>
      have := ih s t ls₂ (fun l hl => h1 l (List.mem_cons_of_mem _ hl)) h2
      simp [pickPop, this]
    | cons x t₁ =>
      have hx : s < x := h1 (x :: t₁) (List.mem_cons_self _ _) x t₁ rfl
      have hrec := ih s t ls₂ (fun l hl => h1 l (List.mem_cons_of_mem _ hl)) h2
      simp only [List.cons_append, pickPop, List.append_eq, hrec, if_pos hx]

/-! ### Grouping and merge passes -/

theorem chunksOfAux_flatten {α : Type} (n : ℕ) (hn : 1 ≤ n) :
    ∀ f (l : List α), l.length ≤ f → (chunksOfAux n f l).flatten = l := by
  intro f
  induction f with
  | zero =>
    intro l hl
    have : l = [] := List.eq_nil_of_length_eq_zero (by omega)
    simp [this, chunksOfAux]
  | succ f ih =>
    intro l hl
    cases l with
    | nil => simp [chunksOfAux]
    | cons a as =>
      have hdrop : ((a :: as).drop n).length ≤ f := by
        simp only [List.length_drop, List.length_cons]
        simp only [List.length_cons] at hl
        omega
      simp [chunksOfAux, ih _ hdrop]

theorem chunksOf_flatten {α : Type} (n : ℕ) (hn : 1 ≤ n) (l : List α) :
    (chunksOf n l).flatten = l :=
  chunksOfAux_flatten n hn l.length l le_rfl

theorem cdiv_succ (L n : ℕ) (hL : 1 ≤ L) (hn : 1 ≤ n) :
    (L - n + n - 1) / n + 1 = (L + n - 1) / n := by
  rcases le_or_lt L n with hle | hlt
  · have h1 : L - n + n - 1 = n - 1 := by omega
    have h2 : L + n - 1 = (L - 1) + n := by omega
    rw [h1, h2, Nat.add_div_right _ (by omega : 0 < n),
      Nat.div_eq_of_lt (show n - 1 < n by omega),
      Nat.div_eq_of_lt (show L - 1 < n by omega)]
  · have h2 : L - n + n - 1 = (L - n - 1) + n := by omega
    have h3 : L + n - 1 = ((L - n - 1) + n) + n := by omega
    rw [h2, h3, Nat.add_div_right _ (by omega : 0 < n),
      Nat.add_div_right _ (by omega : 0 < n),
      Nat.add_div_right _ (by omega : 0 < n)]

theorem chunksOfAux_length {α : Type} (n : ℕ) (hn : 1 ≤ n) :
    ∀ f (l : List α), l.length ≤ f →
      (chunksOfAux n f l).length = (l.length + n - 1) / n := by
  intro f
  induction f with
  | zero =>
    intro l hl
    have h0 : l = [] := List.eq_nil_of_length_eq_zero (by omega)
    subst h0
    simp only [chunksOfAux, List.length_nil, Nat.zero_add]
    exact (Nat.div_eq_of_lt (by omega)).symm
  | succ f ih =>
    intro l hl
    cases l with
    | nil =>
      simp only [chunksOfAux, List.length_nil, Nat.zero_add]
      exact (Nat.div_eq_of_lt (by omega)).symm
    | cons a as =>
      have hdrop : ((a :: as).drop n).length ≤ f := by
        simp only [List.length_drop, List.length_cons]
        simp only [List.length_cons] at hl
        omega
      rw [chunksOfAux, List.length_cons, ih _ hdrop, List.length_drop]
      exact cdiv_succ (a :: as).length n (by simp) hn

theorem cdiv_le_iff (a b c : ℕ) (hb : 0 < b) :
    (a + b - 1) / b ≤ c ↔ a ≤ b * c := by
  rw [Nat.div_le_iff_le_mul_add_pred hb]
  generalize b * c = d
  omega

theorem flatten_map_mergeLists_perm :
    ∀ gs : List (List (List Line)), (gs.map mergeLists).flatten ~ gs.flatten.flatten := by
  intro gs
  induction gs with
  | nil => simp
  | cons g gs ih =>
    simp only [List.map_cons, List.flatten_cons, List.flatten_append]
    exact (mergeLists_perm g).append ih

theorem mergePass_perm (x : ℕ) (hx : 1 ≤ x) (pool : List (List Line)) :
    (mergePass x pool).flatten ~ pool.flatten := by
  have := flatten_map_mergeLists_perm (chunksOf x pool)
  rw [chunksOf_flatten x hx pool] at this
  exact this

theorem mergePass_sorted (x : ℕ) (hx : 1 ≤ x) (pool : List (List Line))
    (hs : ∀ l ∈ pool, List.Sorted (· ≤ ·) l) :
    ∀ l ∈ mergePass x pool, List.Sorted (· ≤ ·) l := by
  intro l hl
  obtain ⟨g, hg, rfl⟩ := List.mem_map.mp hl
  refine mergeLists_sorted g ?_
  intro a ha
  have : a ∈ (chunksOf x pool).flatten := List.mem_flatten.mpr ⟨g, hg, ha⟩
  rw [chunksOf_flatten x hx pool] at this
  exact hs a this

theorem mergePass_length (x : ℕ) (hx : 1 ≤ x) (pool : List (List Line)) :
    (mergePass x pool).length = (pool.length + x - 1) / x := by
  rw [mergePass, List.length_map, chunksOf]
  exact chunksOfAux_length x hx pool.length pool le_rfl

theorem runPasses_perm (k x : ℕ) (hx : 1 ≤ x) :
    ∀ pool : List (List Line), (runPasses k x pool).flatten ~ pool.flatten := by
  induction k with
  | zero => intro pool; exact List.Perm.refl _
  | succ k ih =>
    intro pool
    exact (ih (mergePass x pool)).trans (mergePass_perm x hx pool)

theorem runPasses_sorted (k x : ℕ) (hx : 1 ≤ x) :
    ∀ pool : List (List Line), (∀ l ∈ pool, List.Sorted (· ≤ ·) l) →
      ∀ l ∈ runPasses k x pool, List.Sorted (· ≤ ·) l := by
  induction k with
  | zero => intro pool hs; exact hs
  | succ k ih =>
    intro pool hs
    exact ih (mergePass x pool) (mergePass_sorted x hx pool hs)

theorem runPasses_length_one (k x : ℕ) (hx : 2 ≤ x) :
    ∀ pool : List (List Line), 1 ≤ pool.length → pool.length ≤ x ^ k →
      (runPasses k x pool).length = 1 := by
  induction k with
  | zero =>
    intro pool h1 h2
    simp only [pow_zero] at h2
    simpa [runPasses] using le_antisymm h2 h1
  | succ k ih =>
    intro pool h1 h2
    have hx1 : 1 ≤ x := by omega
    have hlen := mergePass_length x hx1 pool
    refine ih (mergePass x pool) ?_ ?_
    · by_contra hcon
      have h0 : (mergePass x pool).length ≤ 0 := by omega
      rw [hlen, cdiv_le_iff _ _ _ (by omega)] at h0
      omega
    · rw [hlen, cdiv_le_iff _ _ _ (by omega)]
      calc pool.length ≤ x ^ (k + 1) := h2
        _ = x * x ^ k := by rw [pow_succ, mul_comm]

/-! ### The pass planner: integer characterisation -/

theorem leastFrom_ge (p : ℕ → Bool) : ∀ f start, start ≤ leastFrom p start f := by
  intro f
  induction f with
  | zero => intro start; exact le_refl _
  | succ f ih =>
    intro start
    by_cases h : p start = true
    · simp [leastFrom, h]
    · rw [leastFrom, if_neg h]
      exact le_trans (by omega) (ih (start + 1))

theorem leastFrom_spec (p : ℕ → Bool) :
    ∀ f start, (∃ k, start ≤ k ∧ k ≤ start + f ∧ p k = true) →
      p (leastFrom p start f) = true ∧
        ∀ m, start ≤ m → m < leastFrom p start f → p m = false := by
  intro f
  induction f with
  | zero =>
    intro start hex
    obtain ⟨k, hk1, hk2, hk3⟩ := hex
    have hks : k = start := by omega
    subst hks
    exact ⟨hk3, fun m hm1 hm2 => by simp only [leastFrom] at hm2; omega⟩
  | succ f ih =>
    intro start hex
    obtain ⟨k, hk1, hk2, hk3⟩ := hex
    by_cases h : p start = true
    · rw [leastFrom, if_pos h]
      exact ⟨h, fun m hm1 hm2 => absurd hm2 (by omega)⟩
    · have hfalse : p start = false := by simpa using h
      have hk : start + 1 ≤ k := by
        rcases eq_or_lt_of_le hk1 with rfl | hlt
        · rw [hk3] at hfalse; exact absurd hfalse (by simp)
        · omega
      have spec := ih (start + 1) ⟨k, hk, by omega, hk3⟩
      rw [leastFrom, if_neg h]
      refine ⟨spec.1, ?_⟩
      intro mm hm1 hm2
      rcases eq_or_lt_of_le hm1 with rfl | hlt
      · exact hfalse
      · exact spec.2 mm (by omega) hm2

theorem pow_add_mul_le_succ_pow (b : ℕ) :
    ∀ k, b ^ (k + 1) + (k + 1) * b ^ k ≤ (b + 1) ^ (k + 1) := by
  intro k
  induction k with
  | zero =>
    norm_num
  | succ k ih =>
    have expand : (b ^ (k + 1) + (k + 1) * b ^ k) * (b + 1)
        = b ^ (k + 2) + (k + 2) * b ^ (k + 1) + (k + 1) * b ^ k := by ring
    calc b ^ (k + 1 + 1) + (k + 1 + 1) * b ^ (k + 1)
        = b ^ (k + 2) + (k + 2) * b ^ (k + 1) := by ring
      _ ≤ b ^ (k + 2) + (k + 2) * b ^ (k + 1) + (k + 1) * b ^ k :=
          Nat.le_add_right _ _
      _ = (b ^ (k + 1) + (k + 1) * b ^ k) * (b + 1) := expand.symm
      _ ≤ (b + 1) ^ (k + 1) * (b + 1) := Nat.mul_le_mul_right _ ih
      _ = (b + 1) ^ (k + 1 + 1) := by ring

theorem planner_exists_k (n m b : ℕ) (h2 : 2 ≤ n) (hb : 1 ≤ b) (hm : 2 * b < m) :
    n * b ^ (b * n) ≤ (m - b) ^ (b * n) := by
  have hbn : 0 < b * n := Nat.mul_pos (by omega) (by omega)
  obtain ⟨k', hk'⟩ : ∃ k', b * n = k' + 1 := ⟨b * n - 1, by omega⟩
  rw [hk']
  have e : (k' + 1) * b ^ k' = n * b ^ (k' + 1) := by
    rw [pow_succ, ← hk']
    ring
  calc n * b ^ (k' + 1)
      ≤ b ^ (k' + 1) + (k' + 1) * b ^ k' := by rw [e]; exact Nat.le_add_left _ _
    _ ≤ (b + 1) ^ (k' + 1) := pow_add_mul_le_succ_pow b k'
    _ ≤ (m - b) ^ (k' + 1) := Nat.pow_le_pow_left (by omega) _

theorem numMerges_ge_one (n m b : ℕ) : 1 ≤ numMerges n m b :=
  leastFrom_ge _ _ _

theorem numMerges_spec (n m b : ℕ) (h2 : 2 ≤ n) (hb : 1 ≤ b) (hm : 2 * b < m) :
    n * b ^ numMerges n m b ≤ (m - b) ^ numMerges n m b ∧
      ∀ k, 1 ≤ k → k < numMerges n m b → ¬ n * b ^ k ≤ (m - b) ^ k := by
  have hbn : 0 < b * n := Nat.mul_pos (by omega) (by omega)
  have hex : ∃ k, 1 ≤ k ∧ k ≤ 1 + b * n ∧
      (fun k => decide (n * b ^ k ≤ (m - b) ^ k)) k = true :=
    ⟨b * n, by omega, by omega, by simpa using planner_exists_k n m b h2 hb hm⟩
  have spec := leastFrom_spec _ (b * n) 1 hex
  refine ⟨by simpa using spec.1, ?_⟩
  intro k hk1 hk2
  have := spec.2 k hk1 hk2
  simpa using this

theorem fanIn_ge_one (n m b : ℕ) : 1 ≤ fanIn n m b :=
  leastFrom_ge _ _ _

theorem fanIn_spec (n m b : ℕ) (h2 : 2 ≤ n) (hb : 1 ≤ b) (hm : 2 * b < m) :
    n ≤ fanIn n m b ^ numMerges n m b ∧
      ∀ x, 1 ≤ x → x < fanIn n m b → ¬ n ≤ x ^ numMerges n m b := by
  have hK1 := numMerges_ge_one n m b
  have hex : ∃ x, 1 ≤ x ∧ x ≤ 1 + n ∧
      (fun x => decide (n ≤ x ^ numMerges n m b)) x = true :=
    ⟨n, by omega, by omega, by simpa using Nat.le_self_pow (by omega) n⟩
  have spec := leastFrom_spec _ n 1 hex
  refine ⟨by simpa using spec.1, ?_⟩
  intro x hx1 hx2
  have := spec.2 x hx1 hx2
  simpa using this

theorem fanIn_two_le (n m b : ℕ) (h2 : 2 ≤ n) (hb : 1 ≤ b) (hm : 2 * b < m) :
    2 ≤ fanIn n m b := by
  have h1 := fanIn_ge_one n m b
  have hs := (fanIn_spec n m b h2 hb hm).1
  rcases Nat.lt_or_ge (fanIn n m b) 2 with h | h
  · have he : fanIn n m b = 1 := by omega
    rw [he, one_pow] at hs
    omega
  · exact h

theorem fanIn_le_sub (n m b : ℕ) (h2 : 2 ≤ n) (hb : 1 ≤ b) (hm : 2 * b < m) :
    fanIn n m b ≤ m - b := by
  have hsat : n ≤ (m - b) ^ numMerges n m b := by
    have h1 := (numMerges_spec n m b h2 hb hm).1
    have hb1 : 1 ≤ b ^ numMerges n m b := Nat.one_le_pow _ _ (by omega)
    calc n = n * 1 := (mul_one n).symm
      _ ≤ n * b ^ numMerges n m b := Nat.mul_le_mul_left n hb1
      _ ≤ (m - b) ^ numMerges n m b := h1
  by_contra hcon
  push_neg at hcon
  exact (fanIn_spec n m b h2 hb hm).2 (m - b) (by omega) hcon hsat

theorem updatedBuffer_pos (n m b : ℕ) (h2 : 2 ≤ n) (hb : 1 ≤ b) (hm : 2 * b < m) :
    1 ≤ m / (fanIn n m b + 1) := by
  have hle := fanIn_le_sub n m b h2 hb hm
  exact (Nat.one_le_div_iff (by omega)).mpr (by omega)

theorem updatedBuffer_mul_le (m x : ℕ) : (x + 1) * (m / (x + 1)) ≤ m := by
  rw [Nat.mul_comm]
  exact Nat.div_mul_le_self m (x + 1)

/-! ### The pass planner: exact real semantics of the source formulas -/

theorem planner_bridge_k (n m b : ℕ) (h2 : 2 ≤ n) (hb : 1 ≤ b) (hm : 2 * b < m)
    (k : ℕ) :
    n * b ^ k ≤ (m - b) ^ k ↔
      Real.log n / Real.log ((m : ℝ) / b - 1) ≤ (k : ℝ) := by
  have hb0 : (0 : ℝ) < b := by exact_mod_cast (by omega : 0 < b)
  have hmb : ((2 * b : ℕ) : ℝ) < m := by exact_mod_cast hm
  push_cast at hmb
  have ha1 : 1 < (m : ℝ) / b - 1 := by
    rw [lt_sub_iff_add_lt, lt_div_iff hb0]
    linarith
  have hapos : (0 : ℝ) < (m : ℝ) / b - 1 := by linarith
  have hcast : ((m - b : ℕ) : ℝ) = (m : ℝ) - b := by
    rw [Nat.cast_sub (by omega)]
  have ha' : (m : ℝ) / b - 1 = ((m : ℝ) - b) / b := by field_simp
  have hn0 : (0 : ℝ) < n := by exact_mod_cast (by omega : 0 < n)
  have c1 : n * b ^ k ≤ (m - b) ^ k ↔ (n : ℝ) * (b : ℝ) ^ k ≤ ((m : ℝ) - b) ^ k := by
    rw [← hcast]
    constructor
    · intro h; exact_mod_cast h
    · intro h; exact_mod_cast h
  have c2 : (n : ℝ) ≤ ((m : ℝ) / b - 1) ^ k ↔
      (n : ℝ) * (b : ℝ) ^ k ≤ ((m : ℝ) - b) ^ k := by
    rw [ha', div_pow, le_div_iff (pow_pos hb0 k)]
  have c3 : (n : ℝ) ≤ ((m : ℝ) / b - 1) ^ k ↔
      Real.log n ≤ (k : ℝ) * Real.log ((m : ℝ) / b - 1) := by
    rw [← Real.log_le_log_iff hn0 (pow_pos hapos k), Real.log_pow]
  have c4 : Real.log n ≤ (k : ℝ) * Real.log ((m : ℝ) / b - 1) ↔
      Real.log n / Real.log ((m : ℝ) / b - 1) ≤ (k : ℝ) :=
    (div_le_iff (Real.log_pos ha1)).symm
  exact c1.trans (c2.symm.trans (c3.trans c4))

theorem numMerges_eq_formula (n m b : ℕ) (h2 : 2 ≤ n) (hb : 1 ≤ b)
    (hm : 2 * b < m) : numMergesR n m b = (numMerges n m b : ℤ) := by
  have hb0 : (0 : ℝ) < b := by exact_mod_cast (by omega : 0 < b)
  have hmb : ((2 * b : ℕ) : ℝ) < m := by exact_mod_cast hm
  push_cast at hmb
  have ha1 : 1 < (m : ℝ) / b - 1 := by
    rw [lt_sub_iff_add_lt, lt_div_iff hb0]
    linarith
  have hn1 : (1 : ℝ) < n := by exact_mod_cast (by omega : 1 < n)
  have hloga : 0 < Real.log ((m : ℝ) / b - 1) := Real.log_pos ha1
  have hlogn : 0 < Real.log n := Real.log_pos hn1
  have hr : numMergesR n m b = ⌈Real.log n / Real.log ((m : ℝ) / b - 1)⌉ := by
    rw [numMergesR, one_div_div]
  have hK1 : 1 ≤ numMerges n m b := numMerges_ge_one n m b
  have hsat := (numMerges_spec n m b h2 hb hm).1
  have hup : Real.log n / Real.log ((m : ℝ) / b - 1) ≤ (numMerges n m b : ℝ) :=
    (planner_bridge_k n m b h2 hb hm _).mp hsat
  have hlow : ((numMerges n m b : ℝ) - 1) < Real.log n / Real.log ((m : ℝ) / b - 1) := by
    rcases eq_or_lt_of_le hK1 with h1 | h1
    · have hpos := div_pos hlogn hloga
      rw [← h1]
      norm_num
      exact hpos
    · have hmin := (numMerges_spec n m b h2 hb hm).2 (numMerges n m b - 1)
        (by omega) (by omega)
      have hnot : ¬ Real.log n / Real.log ((m : ℝ) / b - 1) ≤
          ((numMerges n m b - 1 : ℕ) : ℝ) :=
        fun hc => hmin ((planner_bridge_k n m b h2 hb hm _).mpr hc)
      push_neg at hnot
      have hc : ((numMerges n m b - 1 : ℕ) : ℝ) = (numMerges n m b : ℝ) - 1 := by
        rw [Nat.cast_sub (by omega)]
        norm_num
      rw [hc] at hnot
      exact hnot
  rw [hr, Int.ceil_eq_iff]
  constructor
  · push_cast
    exact hlow
  · push_cast
    exact hup

theorem planner_bridge_x (n K : ℕ) (h2 : 2 ≤ n) (hK : 1 ≤ K) (x : ℕ) :
    n ≤ x ^ K ↔ (n : ℝ) ^ ((1 : ℝ) / (K : ℝ)) ≤ (x : ℝ) := by
  have hK0 : (0 : ℝ) < K := by exact_mod_cast (by omega : 0 < K)
  have hn0 : (0 : ℝ) ≤ n := by positivity
  constructor
  · intro h
    have hc : (n : ℝ) ≤ (x : ℝ) ^ (K : ℕ) := by exact_mod_cast h
    have hmono := Real.rpow_le_rpow hn0 hc (by positivity : (0 : ℝ) ≤ 1 / (K : ℝ))
    rwa [← Real.rpow_natCast (x : ℝ) K, ← Real.rpow_mul (by positivity),
      mul_one_div, div_self (ne_of_gt hK0), Real.rpow_one] at hmono
  · intro h
    have h0 : (n : ℝ) = ((n : ℝ) ^ ((1 : ℝ) / (K : ℝ))) ^ (K : ℕ) := by
      rw [← Real.rpow_natCast ((n : ℝ) ^ ((1 : ℝ) / (K : ℝ))) K,
        ← Real.rpow_mul hn0, one_div, inv_mul_cancel₀ (ne_of_gt hK0),
        Real.rpow_one]
    have hc : ((n : ℝ) ^ ((1 : ℝ) / (K : ℝ))) ^ (K : ℕ) ≤ (x : ℝ) ^ (K : ℕ) :=
      pow_le_pow_left (by positivity) h K
    rw [← h0] at hc
    exact_mod_cast hc

theorem fanIn_eq_formula (n m b : ℕ) (h2 : 2 ≤ n) (hb : 1 ≤ b)
    (hm : 2 * b < m) : fanInR n m b = (fanIn n m b : ℤ) := by
  have hK1 : 1 ≤ numMerges n m b := numMerges_ge_one n m b
  have hKR : ((numMergesR n m b : ℤ) : ℝ) = (numMerges n m b : ℝ) := by
    rw [numMerges_eq_formula n m b h2 hb hm]
    push_cast
    rfl
  have hX2 : 2 ≤ fanIn n m b := fanIn_two_le n m b h2 hb hm
  have hsat := (fanIn_spec n m b h2 hb hm).1
  have hup : (n : ℝ) ^ ((1 : ℝ) / (numMerges n m b : ℝ)) ≤ (fanIn n m b : ℝ) :=
    (planner_bridge_x n (numMerges n m b) h2 hK1 _).mp hsat
  have hlow : ((fanIn n m b : ℝ) - 1) < (n : ℝ) ^ ((1 : ℝ) / (numMerges n m b : ℝ)) := by
    have hmin := (fanIn_spec n m b h2 hb hm).2 (fanIn n m b - 1) (by omega) (by omega)
    have hnot : ¬ (n : ℝ) ^ ((1 : ℝ) / (numMerges n m b : ℝ)) ≤
        ((fanIn n m b - 1 : ℕ) : ℝ) :=
      fun hc => hmin ((planner_bridge_x n (numMerges n m b) h2 hK1 _).mpr hc)
    push_neg at hnot
    have hc : ((fanIn n m b - 1 : ℕ) : ℝ) = (fanIn n m b : ℝ) - 1 := by
      rw [Nat.cast_sub (by omega)]
      norm_num
    rw [hc] at hnot
    exact hnot
  rw [fanInR, hKR, Int.ceil_eq_iff]
  constructor
  · push_cast
    exact hlow
  · push_cast
    exact hup

theorem floor_nat_div (m d : ℕ) (hd : 0 < d) :
    ⌊(m : ℝ) / (d : ℝ)⌋ = ((m / d : ℕ) : ℤ) := by
  have hd0 : (0 : ℝ) < d := by exact_mod_cast hd
  rw [Int.floor_eq_iff]
  constructor
  · rw [le_div_iff hd0]
    push_cast
    exact_mod_cast Nat.div_mul_le_self m d
  · rw [div_lt_iff hd0]
    have hlt : m < (m / d + 1) * d := by
      have hdm := Nat.div_add_mod m d
      have hmod : m % d < d := Nat.mod_lt m hd
      calc m = d * (m / d) + m % d := hdm.symm
        _ < d * (m / d) + d := by omega
        _ = (m / d + 1) * d := by ring
    push_cast
    exact_mod_cast hlt

theorem getPassParamsR_eq (n m b : ℕ) (h2 : 2 ≤ n) (hb : 1 ≤ b)
    (hm : 2 * b < m) (upd : Bool) :
    getPassParamsR n m b upd =
      ((numMerges n m b : ℤ), (fanIn n m b : ℤ),
        (((if upd then m / (fanIn n m b + 1) else b) : ℕ) : ℤ)) := by
  rw [getPassParamsR, numMerges_eq_formula n m b h2 hb hm,
    fanIn_eq_formula n m b h2 hb hm]
  cases upd with
  | false => simp
  | true =>
    simp only [if_true]
    have : ((fanIn n m b : ℤ) : ℝ) + 1 = ((fanIn n m b + 1 : ℕ) : ℝ) := by
      push_cast
      ring
    rw [this, floor_nat_div m (fanIn n m b + 1) (by omega)]

/-! ### The full run -/

theorem flatten_map_heapSort_perm :
    ∀ bs : List (List Line), (bs.map heapSort).flatten ~ bs.flatten := by
  intro bs
  induction bs with
  | nil => simp
  | cons bk bs ih =>
    simp only [List.map_cons, List.flatten_cons]
    exact (heapSort_perm bk).append ih

theorem externalSortRun_main (mem buf : ℕ) (upd : Bool) (lines : List Line)
    (out : List Line) (ws : List (List Line))
    (h : externalSortRun mem buf upd lines = (some out, ws)) :
    List.Sorted (· ≤ ·) out ∧ out ~ lines ∧ ws = [] := by
  have hcs : ∀ l ∈ (splitBlocks mem lines).map heapSort, List.Sorted (· ≤ ·) l := by
    intro l hl
    obtain ⟨bk, _, rfl⟩ := List.mem_map.mp hl
    exact heapSort_sorted bk
  have hperm : ((splitBlocks mem lines).map heapSort).flatten ~ lines := by
    have h1 := flatten_map_heapSort_perm (splitBlocks mem lines)
    rw [splitBlocks_flatten mem lines] at h1
    exact h1
  unfold externalSortRun at h
  split at h
  · simp at h
  · rename_i c heq
    rw [Prod.mk.injEq] at h
    obtain ⟨h1, h2⟩ := h
    obtain rfl := Option.some.inj h1
    refine ⟨hcs c (by rw [heq]; exact List.mem_singleton_self c), ?_, h2.symm⟩
    rw [heq] at hperm
    simpa using hperm
  · rename_i c1 c2 rest heq
    rw [← heq] at h
    by_cases hcfg : 2 * buf < mem
    · rw [if_pos hcfg] at h
      split at h
      · rename_i r hrun
        rw [Prod.mk.injEq] at h
        obtain ⟨h1, h2⟩ := h
        obtain rfl := Option.some.inj h1
        have hXge : 1 ≤ fanIn ((splitBlocks mem lines).map heapSort).length mem buf :=
          fanIn_ge_one _ _ _
        refine ⟨?_, ?_, h2.symm⟩
        · exact runPasses_sorted _ _ hXge _ hcs r
            (by rw [hrun]; exact List.mem_singleton_self r)
        · have hp2 := runPasses_perm
            (numMerges ((splitBlocks mem lines).map heapSort).length mem buf) _ hXge
            ((splitBlocks mem lines).map heapSort)
          rw [hrun] at hp2
          simp only [List.flatten_cons, List.flatten_nil, List.append_nil] at hp2
          exact hp2.trans hperm
      · simp at h
    · rw [if_neg hcfg] at h
      simp at h

/-! ### Claim theorems -/

/-- C1: for every input file of line-terminated records and every
configuration, the file produced by `ExternalMergeSort.sort` (when the run
completes and produces one) has its lines in non-decreasing lexicographic
codepoint order: every adjacent pair of output lines satisfies
`line[i] <= line[i+1]`. -/
theorem c1_output_sorted (mem buf : ℕ) (upd : Bool) (lines : List Line)
    (out : List Line) (h : externalSort mem buf upd lines = some out) :
    List.Sorted (· ≤ ·) out := by
  have hr : externalSortRun mem buf upd lines =
      (some out, (externalSortRun mem buf upd lines).2) := by
    rw [← h]
    rfl
  exact (externalSortRun_main mem buf upd lines out _ hr).1

theorem c1_witness :
    externalSort 3 1 true [['d', '\n'], ['c', '\n'], ['b', '\n'], ['a', '\n']] =
        some [['a', '\n'], ['b', '\n'], ['c', '\n'], ['d', '\n']] ∧
      List.Sorted (· ≤ ·) [['a', '\n'], ['b', '\n'], ['c', '\n'], ['d', '\n']] :=
  ⟨rfl, c1_output_sorted 3 1 true
    [['d', '\n'], ['c', '\n'], ['b', '\n'], ['a', '\n']]
    [['a', '\n'], ['b', '\n'], ['c', '\n'], ['d', '\n']] rfl⟩

/-- C2: for every input file of line-terminated records and every memory
limit and buffer size, the multiset of lines of the file produced by
`ExternalMergeSort.sort` (when the run completes and produces one) equals
the multiset of lines of the input file exactly — no line is lost,
duplicated, or altered. -/
theorem c2_permutation (mem buf : ℕ) (upd : Bool) (lines : List Line)
    (out : List Line) (h : externalSort mem buf upd lines = some out) :
    (out : Multiset Line) = (lines : Multiset Line) := by
  have hr : externalSortRun mem buf upd lines =
      (some out, (externalSortRun mem buf upd lines).2) := by
    rw [← h]
    rfl
  exact Multiset.coe_eq_coe.mpr (externalSortRun_main mem buf upd lines out _ hr).2.1

theorem c2_witness :
    externalSort 3 1 true [['d', '\n'], ['c', '\n'], ['b', '\n'], ['a', '\n']] =
        some [['a', '\n'], ['b', '\n'], ['c', '\n'], ['d', '\n']] ∧
      ([['a', '\n'], ['b', '\n'], ['c', '\n'], ['d', '\n']] : Multiset Line) =
        ([['d', '\n'], ['c', '\n'], ['b', '\n'], ['a', '\n']] : Multiset Line) :=
  ⟨rfl, c2_permutation 3 1 true
    [['d', '\n'], ['c', '\n'], ['b', '\n'], ['a', '\n']]
    [['a', '\n'], ['b', '\n'], ['c', '\n'], ['d', '\n']] rfl⟩

/-- C3: the claim says an empty input produces zero chunks and `sort`
completes with an empty output file and no temp files.  The split phase does
produce zero chunks, but the merge phase then calls `_get_pass_params`,
which evaluates `np.log(0) = -inf` and raises `OverflowError` at
`int(np.ceil(-inf))` — the run fails (modelled by `none`) instead of
producing an empty output; no chunk or merge temp file exists at that
point. -/
theorem c3_empty_input_fails (mem buf : ℕ) (upd : Bool) :
    externalSortRun mem buf upd [] = (none, []) := rfl

/-- C4 counterexample: with `memory_limit = 1` and a single 3-character line,
the block read by `readlines(memory_limit)` has cumulative size `3 > 1` —
the read-ahead does not stop at or before the limit. -/
theorem c4_counterexample :
    splitBlocks 1 [['a', 'a', '\n']] = [[['a', 'a', '\n']]] ∧
      ¬ ((([['a', 'a', '\n']] : List Line).map List.length).sum ≤ 1) := by
  constructor
  · rfl
  · decide

/-- C4 amended: every block read by the split phase exceeds `memory_limit`
by at most its final line: the cumulative size of all lines of the block
except the last is at most `memory_limit` (the read-ahead, which stops at
the first line that takes the cumulative size strictly past the limit,
never takes a further line once the limit is passed). -/
theorem c4_amended (mem : ℕ) (lines : List Line) (bk : List Line)
    (hb : bk ∈ splitBlocks mem lines) :
    ((bk.dropLast.map List.length).sum) ≤ mem :=
  splitBlocks_block_bound mem lines bk hb

theorem c4_witness :
    ((([['a', '\n'], ['b', '\n']] : List Line).dropLast.map List.length).sum) ≤ 5 :=
  c4_amended 5 [['a', '\n'], ['b', '\n']] [['a', '\n'], ['b', '\n']]
    (by decide)

/-- C5 counterexample: at `chunk_count = 2`, `memory_limit = 10`,
`buffer_size = 4` (so `memory_limit / buffer_size = 2.5 > 2`) with
`update_buffer_size = False`, the plan is `(2, 2, 4)` and
`(fan_in + 1) * buffer_size = 12 > 10 = memory_limit`. -/
theorem c5_counterexample :
    getPassParamsR 2 10 4 false = (2, 2, 4) ∧
      ¬ (((2 : ℤ) + 1) * 4 ≤ (10 : ℤ)) := by
  constructor
  · rw [getPassParamsR_eq 2 10 4 (by norm_num) (by norm_num) (by norm_num) false]
    decide
  · decide

/-- C5 amended: when auto-tune recomputes the buffer size
(`update_buffer_size = True`), the plan `(num_passes, fan_in, buffer)`
returned by `_get_pass_params` satisfies
`(fan_in + 1) * buffer <= memory_limit`; when the caller's buffer size is
kept, the invariant can fail (see the counterexample). -/
theorem c5_amended (n m b : ℕ) (h2 : 2 ≤ n) (hb : 1 ≤ b) (hm : 2 * b < m) :
    ((getPassParamsR n m b true).2.1 + 1) * (getPassParamsR n m b true).2.2 ≤ (m : ℤ) := by
  rw [getPassParamsR_eq n m b h2 hb hm true]
  simp only [if_true]
  have hmul := updatedBuffer_mul_le m (fanIn n m b)
  push_cast
  exact_mod_cast hmul

theorem c5_witness :
    ((getPassParamsR 4 100 10 true).2.1 + 1) * (getPassParamsR 4 100 10 true).2.2 ≤
      (100 : ℤ) :=
  c5_amended 4 100 10 (by decide) (by decide) (by decide)

/-- C6: for every `chunk_count ≥ 2` and configuration with
`memory_limit / buffer_size > 2` (and a positive buffer size), the plan
returned by `_get_pass_params` satisfies
`fan_in ** num_passes >= chunk_count`, and therefore `num_passes` merge
passes with fan-in `fan_in` reduce any pool of `chunk_count` files to
exactly one file. -/
theorem c6_plan_capacity (n m b : ℕ) (h2 : 2 ≤ n) (hb : 1 ≤ b) (hm : 2 * b < m) :
    n ≤ (fanInR n m b).toNat ^ (numMergesR n m b).toNat ∧
      ∀ pool : List (List Line), pool.length = n →
        (runPasses (numMergesR n m b).toNat (fanInR n m b).toNat pool).length = 1 := by
  have hK : (numMergesR n m b).toNat = numMerges n m b := by
    rw [numMerges_eq_formula n m b h2 hb hm, Int.toNat_natCast]
  have hX : (fanInR n m b).toNat = fanIn n m b := by
    rw [fanIn_eq_formula n m b h2 hb hm, Int.toNat_natCast]
  rw [hK, hX]
  refine ⟨(fanIn_spec n m b h2 hb hm).1, ?_⟩
  intro pool hlen
  exact runPasses_length_one (numMerges n m b) (fanIn n m b)
    (fanIn_two_le n m b h2 hb hm) pool (by omega)
    (by rw [hlen]; exact (fanIn_spec n m b h2 hb hm).1)

theorem c6_witness :
    4 ≤ (fanInR 4 100 10).toNat ^ (numMergesR 4 100 10).toNat ∧
      (runPasses (numMergesR 4 100 10).toNat (fanInR 4 100 10).toNat
        [[['a']], [['b']], [['c']], [['d']]]).length = 1 := by
  have h := c6_plan_capacity 4 100 10 (by decide) (by decide) (by decide)
  exact ⟨h.1, h.2 [[['a']], [['b']], [['c']], [['d']]] rfl⟩

/-- C7 counterexample: `_get_pass_params` has no minimum-viable-size guard.
At `chunk_count = 2`, `memory_limit = 3`, `buffer_size = 1` the recomputed
buffer size is the degenerate value `1` and the planner returns the plan
`(1, 2, 1)` normally instead of raising a configuration error. -/
theorem c7_counterexample : getPassParamsR 2 3 1 true = (1, 2, 1) := by
  rw [getPassParamsR_eq 2 3 1 (by norm_num) (by norm_num) (by norm_num) true]
  decide

/-- C7 amended: no configuration-error guard exists.  On the valid domain
(`chunk_count ≥ 2`, `buffer_size ≥ 1`, `memory_limit > 2 * buffer_size`)
the recomputed buffer size `int(memory_limit / (fan_in + 1))` never
underflows to zero — it is always at least 1 — but degenerate values such as
`1` are returned silently rather than raised as a configuration error. -/
theorem c7_amended (n m b : ℕ) (h2 : 2 ≤ n) (hb : 1 ≤ b) (hm : 2 * b < m) :
    1 ≤ (getPassParamsR n m b true).2.2 := by
  rw [getPassParamsR_eq n m b h2 hb hm true]
  simp only [if_true]
  exact_mod_cast updatedBuffer_pos n m b h2 hb hm

theorem c7_witness : 1 ≤ (getPassParamsR 6 50 2 true).2.2 :=
  c7_amended 6 50 2 (by decide) (by decide) (by decide)

/-- C8 counterexample: an input that fits in one chunk but is not already
sorted.  The sole chunk file holds the heap-sorted block, so the renamed
output is the sorted block — not the input verbatim. -/
theorem c8_counterexample :
    externalSort 100 1 true [['b', '\n'], ['a', '\n']] =
        some [['a', '\n'], ['b', '\n']] ∧
      [['a', '\n'], ['b', '\n']] ≠ [['b', '\n'], ['a', '\n']] := by
  constructor
  · rfl
  · decide

/-- C8 amended: for every input that splits into exactly one chunk, the
merge phase performs zero merge passes and short-circuits to a direct
rename of the sole chunk file (leaving no temp file behind), so the output
equals the heap-sorted content of the single block — which is the input
verbatim exactly when the input was already sorted (in particular for a
single-line input). -/
theorem c8_amended (mem buf : ℕ) (upd : Bool) (lines : List Line)
    (bk : List Line) (h : splitBlocks mem lines = [bk]) :
    externalSortRun mem buf upd lines = (some (heapSort bk), []) ∧
      (List.Sorted (· ≤ ·) lines →
        externalSortRun mem buf upd lines = (some lines, [])) := by
  have h1 : (splitBlocks mem lines).map heapSort = [heapSort bk] := by
    rw [h]
    rfl
  have hbk : bk = lines := by
    have h2 := splitBlocks_flatten mem lines
    rw [h] at h2
    simpa using h2
  constructor
  · unfold externalSortRun
    rw [h1]
  · intro hs
    unfold externalSortRun
    rw [h1, hbk, heapSort_of_sorted lines hs]

theorem c8_witness :
    externalSortRun 100 8192 true [['o', 'n', 'l', 'y', '\n']] =
      (some [['o', 'n', 'l', 'y', '\n']], []) :=
  (c8_amended 100 8192 true [['o', 'n', 'l', 'y', '\n']]
    [['o', 'n', 'l', 'y', '\n']] rfl).2 (by decide)

/-- C9: after every successful run of `sort` the workspace holds no temp
file any more (`os.removedirs` succeeded on the emptied directory, every
merge invocation having deleted its consumed inputs and the final file
having been renamed to the destination). -/
theorem c9_cleanup (mem buf : ℕ) (upd : Bool) (lines : List Line)
    (out : List Line) (ws : List (List Line))
    (h : externalSortRun mem buf upd lines = (some out, ws)) : ws = [] :=
  (externalSortRun_main mem buf upd lines out ws h).2.2

theorem c9_witness :
    externalSortRun 3 1 true [['d', '\n'], ['c', '\n'], ['b', '\n'], ['a', '\n']] =
        (some [['a', '\n'], ['b', '\n'], ['c', '\n'], ['d', '\n']], []) ∧
      ([] : List (List Line)) = [] :=
  ⟨rfl, c9_cleanup 3 1 true
    [['d', '\n'], ['c', '\n'], ['b', '\n'], ['a', '\n']]
    [['a', '\n'], ['b', '\n'], ['c', '\n'], ['d', '\n']] [] rfl⟩

/-- C10: the k-way merge of `_merge_files` is deterministic (it is a
function of the input file list) and stable with respect to equal keys:
whenever the head line `s` of one input file is less-or-equal to every
current head and strictly below every head of an earlier file, that file's
copy of `s` is emitted first — in particular, when two files' heads are
equal, the earlier file in the input list wins, matching the
`(value, iterable-index)` tie-break of `heapq.merge`. -/
theorem c10_merge_stable (ls₁ ls₂ : List (List Line)) (s : Line) (t : List Line)
    (h1 : ∀ l ∈ ls₁, ∀ y t', l = y :: t' → s < y)
    (h2 : ∀ l ∈ ls₂, ∀ y t', l = y :: t' → s ≤ y) :
    mergeLists (ls₁ ++ (s :: t) :: ls₂) = s :: mergeLists (ls₁ ++ t :: ls₂) :=
  mergeLists_step (pickPop_stable ls₁ s t ls₂ h1 h2)

theorem c10_witness :
    mergeLists [[['b']], [['a'], ['c']], [['a']]] =
      ['a'] :: mergeLists [[['b']], [['c']], [['a']]] :=
  c10_merge_stable [[['b']]] [[['a']]] ['a'] [['c']]
    (by
      intro l hl y t' he
      rw [List.mem_singleton] at hl
      subst hl
      obtain ⟨h1, -⟩ := List.cons.inj he
      rw [← h1]
      decide)
    (by
      intro l hl y t' he
      rw [List.mem_singleton] at hl
      subst hl
      obtain ⟨h1, -⟩ := List.cons.inj he
      exact le_of_eq h1)

end ExternalSort
